import Mathlib

/-!
# Session list items of `crush`: match-aware truncation and highlight mapping

A shallow embedding of `internal/tui/components/dialogs/sessions/item.go`:
`matchedRanges`, `bytePosToVisibleCharPos`, `truncateWithMatches` and the
highlight ranges built in `View`; of `Overlay.BringToFront` in
`internal/ui/dialog/dialog.go`; and of `FormatTimeAgo` in
`internal/tui/util/time.go`.

## Data model

A Go `string` is handled by the source only through three capabilities:
the grapheme iterator of `uniseg` (`gr.Next`, `gr.Str`, `gr.Width`), the cell
width `ansi.StringWidth`, and `ansi.Truncate`.  A text is therefore embedded as
the list of grapheme clusters that `uniseg.NewGraphemes` yields for it, each
cluster carrying its bytes (`gr.Str()`) and its display width (`gr.Width()`).
Concatenation of strings is concatenation of cluster lists, and slicing a
string at a cluster boundary is dropping the clusters before the boundary.
Texts are plain (no terminal escape sequences), as session titles are.

Go `int` values are embedded as `Int`.  No computation of the embedded
functions can leave the 64-bit range on inputs that fit in memory: byte and
column counters are bounded by twice the length of the text, and
`current[1]+1` in `matchedRanges` is only compared with an input offset.
-/

namespace Crush

/-- One grapheme cluster as the iterator `uniseg.NewGraphemes` yields it:
`str` is `gr.Str()` and `width` is `gr.Width()`, the display width of the
cluster (0 for clusters that take no cell, 2 for wide glyphs). -/
structure Cluster where
  str : String
  width : Nat
deriving DecidableEq, Repr

/-- The byte length `len(gr.Str())` of a cluster. -/
def Cluster.len (c : Cluster) : Nat := c.str.utf8ByteSize

/-- The columns a cluster contributes in the loops of the source:
`max(1, gr.Width())`. -/
def Cluster.cols (c : Cluster) : Nat := max 1 c.width

/-- A text, as the sequence of its grapheme clusters. -/
abbrev Text := List Cluster

/-- The byte length `len(text)`. -/
def byteLen (t : Text) : Nat := (t.map Cluster.len).sum

/-- The total column width of a text in the measure of the source's loops:
every cluster contributes `max(1, gr.Width())` columns. -/
def totalColumns (t : Text) : Nat := (t.map Cluster.cols).sum

/-- Modelled from the spec: `ansi.StringWidth` belongs to the library
`github.com/charmbracelet/x/ansi`, which is not under `src/`.  It is the
display width of a plain string: the sum of the display widths
(`displayWidth`) of its grapheme clusters. -/
def StringWidth (t : Text) : Nat := (t.map Cluster.width).sum

/-- The longest prefix of whole clusters of `s` whose display width is at most
`k`. -/
def takeFit : Nat → Text → Text
  | _, [] => []
  | k, c :: cs => if c.width ≤ k then c :: takeFit (k - c.width) cs else []

/-- Modelled from the spec: `ansi.Truncate` belongs to the library
`github.com/charmbracelet/x/ansi`, which is not under `src/`.  A string that
fits in `length` is returned unchanged.  Otherwise (section 4.3, step 3) the
result is the longest prefix whose width is `length` minus the width reserved
for the tail, followed by the tail; when no column is left after the
reservation, the string is truncated to `length` with no tail. -/
def Truncate (s : Text) (length : Int) (tail : Text) : Text :=
  if (StringWidth s : Int) ≤ length then s
  else if length - (StringWidth tail : Int) ≤ 0 then takeFit length.toNat s
  else takeFit (length - (StringWidth tail : Int)).toNat s ++ tail

/-- The ellipsis glyph `"…"` (U+2026): one cluster of three bytes, one column
wide. -/
def ellipsis : Cluster := ⟨"…", 1⟩

/-- State of a walk over the clusters of a string: the iterator `gr` (the
clusters not yet consumed), the byte offset reached and the column reached. -/
structure Walk where
  gr : Text
  bytePos : Int
  pos : Int
deriving DecidableEq, Repr

/-- The byte-driven loop of the source,
`for target > bytePos { if !gr.Next() { break }; bytePos += len(gr.Str()); pos += max(1, gr.Width()) }`
(in `truncateWithMatches` written `for bytePos < lastMatchPos && gr.Next()`). -/
def byteWalk (target : Int) : Text → Int → Int → Walk
  | [], bytePos, pos => ⟨[], bytePos, pos⟩
  | c :: gr, bytePos, pos =>
    if target > bytePos then byteWalk target gr (bytePos + c.len) (pos + c.cols)
    else ⟨c :: gr, bytePos, pos⟩

/-- The column-driven loop of `truncateWithMatches`,
`for currentVisualPos < startVisualPos && gr.Next() { startBytePos += len(gr.Str()); currentVisualPos += max(1, gr.Width()) }`. -/
def colWalk (startVisualPos : Int) : Text → Int → Int → Walk
  | [], startBytePos, currentVisualPos => ⟨[], startBytePos, currentVisualPos⟩
  | c :: gr, startBytePos, currentVisualPos =>
    if currentVisualPos < startVisualPos then
      colWalk startVisualPos gr (startBytePos + c.len) (currentVisualPos + c.cols)
    else ⟨c :: gr, startBytePos, currentVisualPos⟩

/-- `lastMatchVisualPos` of `truncateWithMatches`: the column reached by the
first loop. -/
def lastMatchVisualPos (text : Text) (lastMatchPos : Int) : Int :=
  (byteWalk lastMatchPos text 0 0).pos

/-- `startVisualPos` of `truncateWithMatches`:
`max(0, lastMatchVisualPos-availableWidth+1)` with `availableWidth = width - 1`. -/
def startVisualPos (text : Text) (lastMatchPos width : Int) : Int :=
  max 0 (lastMatchVisualPos text lastMatchPos - (width - 1) + 1)

/-- `sessionItem.truncateWithMatches`, with the receiver's `matchIndexes`
passed explicitly.  `text[startBytePos:]` is the part of the text the second
iterator has not consumed: `startBytePos` is the total length of the clusters
it consumed (`colWalk_split`). -/
def truncateWithMatches (matchIndexes : List Int) (text : Text) (width : Int) : Text :=
  if width ≤ 0 then []
  else
    let textLen : Int := StringWidth text
    if textLen ≤ width then text
    else
      match matchIndexes.getLast? with
      | none => Truncate text width [ellipsis]
      | some lastMatchPos =>
        let ellipsisWidth : Int := 1
        let availableWidth := width - ellipsisWidth
        if lastMatchVisualPos text lastMatchPos < availableWidth then
          Truncate text width [ellipsis]
        else
          let w := colWalk (startVisualPos text lastMatchPos width) text 0 0
          let truncatedText := w.gr
          ellipsis :: Truncate truncatedText availableWidth []

/-- The loop of `matchedRanges` over `in[1:]`, with the range `current` being
extended and the ranges `out` already closed. -/
def matchedRangesLoop : List Int → Int × Int → List (Int × Int) → List (Int × Int)
  | [], current, out => out ++ [current]
  | x :: rest, current, out =>
    if x = current.2 + 1 then matchedRangesLoop rest (current.1, x) out
    else matchedRangesLoop rest (x, x) (out ++ [current])

/-- `matchedRanges`: merges a list of offsets into inclusive ranges of
consecutive offsets. -/
def matchedRanges : List Int → List (Int × Int)
  | [] => []
  | [x] => [(x, x)]
  | x :: rest => matchedRangesLoop rest (x, x) []

/-- `bytePosToVisibleCharPos`: the columns reached when the byte offset first
reaches `rng[0]`, and then `rng[1]`, walking the same iterator. -/
def bytePosToVisibleCharPos (str : Text) (rng : Int × Int) : Int × Int :=
  let w1 := byteWalk rng.1 str 0 0
  let start := w1.pos
  let w2 := byteWalk rng.2 w1.gr w1.bytePos w1.pos
  let stop := w2.pos
  (start, stop)

/-- The highlight ranges built in `sessionItem.View` when
`len(s.matchIndexes) > 0`: for every range of `matchedRanges(s.matchIndexes)`,
`lipgloss.NewRange(start, stop+1, _)` with
`start, stop := bytePosToVisibleCharPos(truncatedTitle, rng)`.  A range is the
half-open column interval `[start, stop+1)`; without matches no range is
built. -/
def viewRanges (matchIndexes : List Int) (title : Text) (availableTitleWidth : Int) :
    List (Int × Int) :=
  let truncatedTitle := truncateWithMatches matchIndexes title availableTitleWidth
  if matchIndexes.length > 0 then
    (matchedRanges matchIndexes).map fun rng =>
      let r := bytePosToVisibleCharPos truncatedTitle rng
      (r.1, r.2 + 1)
  else []

/-- A plain ASCII text: one cluster of one byte and one column per character. -/
def ascii (s : String) : Text := s.toList.map fun ch => ⟨ch.toString, 1⟩

/-- The integers `start..end` of an inclusive range, in order. -/
def expand (r : Int × Int) : List Int :=
  (List.range (r.2 - r.1 + 1).toNat).map fun (k : Nat) => r.1 + (k : Int)

/-- The integers of a list of ranges, range after range. -/
def expandAll : List (Int × Int) → List Int
  | [] => []
  | r :: rs => expand r ++ expandAll rs

/-- The ranges the loop of `matchedRanges` still produces from the range
`current` and the offsets not yet read, without the accumulator `out`. -/
def mergeFrom : Int × Int → List Int → List (Int × Int)
  | current, [] => [current]
  | current, x :: rest =>
    if x = current.2 + 1 then mergeFrom (current.1, x) rest
    else current :: mergeFrom (x, x) rest

/-- The relation between two consecutive ranges of a merged list: both are
well formed and the second starts beyond the offset following the first. -/
def Gap (p q : Int × Int) : Prop := p.1 ≤ p.2 ∧ p.2 + 1 < q.1 ∧ q.1 ≤ q.2

/-- The text `"hello world example"` of the spec's example: 19 ASCII clusters. -/
def helloWorldExample : Text := ascii "hello world example"

/-- `truncateWithMatches` with the two operations of the source that can panic
made explicit: the index expression `s.matchIndexes[len(s.matchIndexes)-1]`
(`none` when the index is out of range) and the slice expression
`text[startBytePos:]` (`none` when `startBytePos` is negative or beyond
`len(text)`). -/
def truncateWithMatchesChecked (matchIndexes : List Int) (text : Text) (width : Int) :
    Option Text :=
  if width ≤ 0 then some []
  else
    let textLen : Int := StringWidth text
    if textLen ≤ width then some text
    else if matchIndexes.length = 0 then some (Truncate text width [ellipsis])
    else
      match matchIndexes[matchIndexes.length - 1]? with
      | none => none
      | some lastMatchPos =>
        let ellipsisWidth : Int := 1
        let availableWidth := width - ellipsisWidth
        if lastMatchVisualPos text lastMatchPos < availableWidth then
          some (Truncate text width [ellipsis])
        else
          let w := colWalk (startVisualPos text lastMatchPos width) text 0 0
          if 0 ≤ w.bytePos ∧ w.bytePos ≤ byteLen text then
            some (ellipsis :: Truncate w.gr availableWidth [])
          else none

/-- The reference `columnOf` of the spec, over the clusters of a text whose
first cluster starts at byte `offset`: the sum of `max(1, displayWidth(cluster))`
over the clusters whose starting byte offset is below `targetByte`. -/
def columnOfFrom (targetByte : Int) : Int → Text → Int
  | _, [] => 0
  | offset, c :: cs =>
    (if offset < targetByte then (c.cols : Int) else 0)
      + columnOfFrom targetByte (offset + c.len) cs

/-- The reference `columnOf(text, targetByte)` of the spec. -/
def columnOf (text : Text) (targetByte : Int) : Int := columnOfFrom targetByte 0 text

/-! ### `internal/ui/dialog/dialog.go` -/

/-- A dialog, as far as `Overlay` looks at it: the value of `ID()` and the rest
of its state. -/
structure Model where
  ID : String
  state : Nat
deriving DecidableEq, Repr

/-- `Overlay`: the stack of dialogs, the active one last.  The key map is not
touched by the operations embedded here. -/
structure Overlay where
  dialogs : List Model
deriving DecidableEq, Repr

/-- The loop of `BringToFront` at index `i`, with the dialogs `rest` still to
visit: at the first dialog with the ID,
`append(append(d.dialogs[:i], d.dialogs[i+1:]...), dialog)`; the stack is left
as it is when the loop ends. -/
def bringToFrontLoop (dialogID : String) (dialogs : List Model) : Nat → List Model → List Model
  | _, [] => dialogs
  | i, dialog :: rest =>
    if dialog.ID = dialogID then (dialogs.take i ++ dialogs.drop (i + 1)) ++ [dialog]
    else bringToFrontLoop dialogID dialogs (i + 1) rest

/-- `Overlay.BringToFront`. -/
def Overlay.BringToFront (d : Overlay) (dialogID : String) : Overlay :=
  ⟨bringToFrontLoop dialogID d.dialogs 0 d.dialogs⟩

/-! ### `internal/tui/util/time.go` -/

/-- The results of `FormatTimeAgo`, case by case; `minutes n` stands for
`fmt.Sprintf("%d minutes ago", n)`, and `date` for `t.Format("Jan 2")`. -/
inductive TimeAgo where
  | never
  | justNow
  | oneMinute
  | minutes (n : Int)
  | oneHour
  | hours (n : Int)
  | oneDay
  | days (n : Int)
  | oneWeek
  | weeks (n : Int)
  | oneMonth
  | date
deriving DecidableEq, Repr

/-- The string of each case; `formatted` is `t.Format("Jan 2")`. -/
def TimeAgo.render (formatted : String) : TimeAgo → String
  | .never => "never"
  | .justNow => "just now"
  | .oneMinute => "1 minute ago"
  | .minutes n => toString n ++ " minutes ago"
  | .oneHour => "1 hour ago"
  | .hours n => toString n ++ " hours ago"
  | .oneDay => "1 day ago"
  | .days n => toString n ++ " days ago"
  | .oneWeek => "1 week ago"
  | .weeks n => toString n ++ " weeks ago"
  | .oneMonth => "1 month ago"
  | .date => formatted

/-- The case `FormatTimeAgo` selects.  `seconds`, `minutes` and `hours` are
`int(duration.Seconds())`, `int(duration.Minutes())` and `int(duration.Hours())`
for `duration = time.Now().Sub(time.Unix(timestamp, 0))`; they come from the
clock and from conversions of the `time` library and are inputs here.  The
integer divisions of Go round towards zero. -/
def timeAgoCase (timestamp seconds minutes hours : Int) : TimeAgo :=
  if timestamp = 0 then .never
  else
    let days := Int.tdiv hours 24
    let weeks := Int.tdiv days 7
    let months := Int.tdiv days 30
    if seconds < 60 then .justNow
    else if minutes < 2 then .oneMinute
    else if minutes < 60 then .minutes minutes
    else if hours < 2 then .oneHour
    else if hours < 24 then .hours hours
    else if days < 2 then .oneDay
    else if days < 7 then .days days
    else if weeks < 2 then .oneWeek
    else if weeks < 4 then .weeks weeks
    else if months < 2 then .oneMonth
    else .date

/-- `FormatTimeAgo`. -/
def FormatTimeAgo (timestamp seconds minutes hours : Int) (formatted : String) : String :=
  (timeAgoCase timestamp seconds minutes hours).render formatted

/-! ## Display width and `Truncate` -/

theorem StringWidth_cons (c : Cluster) (t : Text) :
    StringWidth (c :: t) = c.width + StringWidth t := by
  simp [StringWidth]

theorem StringWidth_append (s t : Text) :
    StringWidth (s ++ t) = StringWidth s + StringWidth t := by
  simp [StringWidth]

theorem totalColumns_cons (c : Cluster) (t : Text) :
    totalColumns (c :: t) = c.cols + totalColumns t := by
  simp [totalColumns]

theorem totalColumns_append (s t : Text) :
    totalColumns (s ++ t) = totalColumns s + totalColumns t := by
  simp [totalColumns]

theorem byteLen_cons (c : Cluster) (t : Text) :
    byteLen (c :: t) = c.len + byteLen t := by
  simp [byteLen]

theorem byteLen_append (s t : Text) :
    byteLen (s ++ t) = byteLen s + byteLen t := by
  simp [byteLen]

theorem width_le_cols (c : Cluster) : c.width ≤ c.cols := by
  simp [Cluster.cols]

theorem one_le_cols (c : Cluster) : 1 ≤ c.cols := by
  simp [Cluster.cols]

theorem StringWidth_le_totalColumns (t : Text) : StringWidth t ≤ totalColumns t := by
  induction t with
  | nil => simp [StringWidth, totalColumns]
  | cons c t ih =>
    rw [StringWidth_cons, totalColumns_cons]
    have := width_le_cols c
    omega

/-- On a text without zero-width clusters the two measures agree. -/
theorem totalColumns_eq_StringWidth (t : Text) (h : ∀ c ∈ t, 1 ≤ c.width) :
    totalColumns t = StringWidth t := by
  induction t with
  | nil => simp [StringWidth, totalColumns]
  | cons c t ih =>
    rw [StringWidth_cons, totalColumns_cons, ih (fun x hx => h x (List.mem_cons_of_mem _ hx))]
    have := h c (List.mem_cons_self _ _)
    simp only [Cluster.cols]
    omega

theorem length_le_totalColumns (t : Text) : t.length ≤ totalColumns t := by
  induction t with
  | nil => simp
  | cons c t ih =>
    rw [totalColumns_cons, List.length_cons]
    have := one_le_cols c
    omega

theorem takeFit_width (k : Nat) (s : Text) : StringWidth (takeFit k s) ≤ k := by
  induction s generalizing k with
  | nil => simp [takeFit, StringWidth]
  | cons c cs ih =>
    unfold takeFit
    split
    · rw [StringWidth_cons]
      have := ih (k - c.width)
      omega
    · simp [StringWidth]

/-- The result of `Truncate` is never wider than a non-negative `length`. -/
theorem Truncate_width (s : Text) (length : Int) (tail : Text) (h : 0 ≤ length) :
    (StringWidth (Truncate s length tail) : Int) ≤ length := by
  unfold Truncate
  split
  · assumption
  · split
    · have := takeFit_width length.toNat s
      omega
    · rw [StringWidth_append]
      have := takeFit_width (length - (StringWidth tail : Int)).toNat s
      omega

/-- With an empty tail, `Truncate` keeps the longest fitting run of clusters. -/
theorem Truncate_nil_tail (s : Text) (length : Int) :
    Truncate s length [] = if (StringWidth s : Int) ≤ length then s else takeFit length.toNat s := by
  unfold Truncate
  split
  · rfl
  · split
    · rfl
    · simp [StringWidth]

theorem takeFit_append (k : Nat) (xs ys : Text) (h : StringWidth xs ≤ k) :
    takeFit k (xs ++ ys) = xs ++ takeFit (k - StringWidth xs) ys := by
  induction xs generalizing k with
  | nil => simp [StringWidth]
  | cons c cs ih =>
    rw [StringWidth_cons] at h
    have hc : c.width ≤ k := by omega
    have e : takeFit k (c :: (cs ++ ys)) = c :: takeFit (k - c.width) (cs ++ ys) := by
      simp [takeFit, hc]
    rw [List.cons_append, e, ih (k - c.width) (by omega), StringWidth_cons, List.cons_append,
      Nat.sub_add_eq]

theorem takeFit_isInit (k : Nat) (s : Text) : ∃ dropped, s = takeFit k s ++ dropped := by
  induction s generalizing k with
  | nil => exact ⟨[], by simp [takeFit]⟩
  | cons c cs ih =>
    unfold takeFit
    split
    · obtain ⟨d, hd⟩ := ih (k - c.width)
      exact ⟨d, by rw [List.cons_append, ← hd]⟩
    · exact ⟨c :: cs, by simp⟩

theorem StringWidth_ellipsis : StringWidth [ellipsis] = 1 := by
  simp [StringWidth, ellipsis]

/-! ## `truncateWithMatches`: width bound and the fitting case -/

/-- A text that fits in a positive width is returned as it is. -/
theorem truncateWithMatches_of_fits (matchIndexes : List Int) (text : Text) (width : Int)
    (hw : 0 < width) (h : (StringWidth text : Int) ≤ width) :
    truncateWithMatches matchIndexes text width = text := by
  unfold truncateWithMatches
  rw [if_neg (by omega)]
  simp only []
  rw [if_pos h]

/-- The result of `truncateWithMatches` is never wider than a non-negative
width. -/
theorem truncateWithMatches_width_bound (matchIndexes : List Int) (text : Text) (width : Int)
    (h : 0 ≤ width) :
    (StringWidth (truncateWithMatches matchIndexes text width) : Int) ≤ width := by
  unfold truncateWithMatches
  split
  · simpa [StringWidth] using h
  · simp only []
    split
    · assumption
    · split
      · exact Truncate_width _ _ _ h
      · split
        · exact Truncate_width _ _ _ h
        · rw [StringWidth_cons]
          have hav : (0 : Int) ≤ width - 1 := by omega
          have := Truncate_width
            (colWalk (startVisualPos text ‹Int› width) text 0 0).gr (width - 1) [] hav
          simp only [ellipsis] at *
          push_cast
          omega

/-- C1: for every text, every list of match offsets and every available width
`w ≥ 0`, the display width of `truncateWithMatches(text, w)` is at most `w`, in
the tail-truncation branch and in the head-truncation branch alike. -/
theorem truncateWithMatches_width_le (matchIndexes : List Int) (text : Text) (width : Int)
    (h : 0 ≤ width) :
    (StringWidth (truncateWithMatches matchIndexes text width) : Int) ≤ width :=
  truncateWithMatches_width_bound matchIndexes text width h

/-- C1, at the spec's example: `"hello world example"`, matches `[14,15,16]`,
width 10 gives the head-truncated `"…rld examp"`, of display width 10. -/
theorem truncateWithMatches_width_le_witness :
    (0 : Int) ≤ 10 ∧
    (StringWidth (truncateWithMatches [14, 15, 16] helloWorldExample 10) : Int) ≤ 10 :=
  ⟨by decide, truncateWithMatches_width_le [14, 15, 16] helloWorldExample 10 (by decide)⟩

/-- C2: a text whose total column width is at most the available width is
returned unchanged, whatever the match offsets. -/
theorem truncateWithMatches_unchanged (matchIndexes : List Int) (text : Text) (width : Int)
    (h : (totalColumns text : Int) ≤ width) :
    truncateWithMatches matchIndexes text width = text := by
  by_cases hw : 0 < width
  · have := StringWidth_le_totalColumns text
    exact truncateWithMatches_of_fits matchIndexes text width hw (by omega)
  · have hlen := length_le_totalColumns text
    have : text.length = 0 := by omega
    have ht : text = [] := List.length_eq_zero.mp this
    subst ht
    unfold truncateWithMatches
    rw [if_pos (by omega)]

/-- C2, at `"short"` with matches `[1, 2]` and width 5. -/
theorem truncateWithMatches_unchanged_witness :
    (totalColumns (ascii "short") : Int) ≤ 5 ∧
    truncateWithMatches [1, 2] (ascii "short") 5 = ascii "short" :=
  ⟨by decide, truncateWithMatches_unchanged [1, 2] (ascii "short") 5 (by decide)⟩

/-! ## `matchedRanges` -/

theorem matchedRangesLoop_eq (rest : List Int) (current : Int × Int) (out : List (Int × Int)) :
    matchedRangesLoop rest current out = out ++ mergeFrom current rest := by
  induction rest generalizing current out with
  | nil => simp [matchedRangesLoop, mergeFrom]
  | cons x rest ih =>
    unfold matchedRangesLoop mergeFrom
    split
    · exact ih _ _
    · rw [ih]
      simp

theorem matchedRanges_cons (x : Int) (rest : List Int) :
    matchedRanges (x :: rest) = mergeFrom (x, x) rest := by
  cases rest with
  | nil => simp [matchedRanges, mergeFrom]
  | cons y ys => simp [matchedRanges, matchedRangesLoop_eq]

theorem expand_single (x : Int) : expand (x, x) = [x] := by
  unfold expand
  have : (x - x + 1).toNat = 1 := by omega
  simp [this, List.range_succ]

theorem mergeFrom_extend (current : Int × Int) (x : Int) (rest : List Int)
    (h : x = current.2 + 1) :
    mergeFrom current (x :: rest) = mergeFrom (current.1, x) rest := by
  rw [mergeFrom, if_pos h]

theorem mergeFrom_close (current : Int × Int) (x : Int) (rest : List Int)
    (h : ¬ x = current.2 + 1) :
    mergeFrom current (x :: rest) = current :: mergeFrom (x, x) rest := by
  rw [mergeFrom, if_neg h]

theorem expand_succ (s e : Int) (h : s ≤ e) : expand (s, e + 1) = expand (s, e) ++ [e + 1] := by
  unfold expand
  have : (e + 1 - s + 1).toNat = (e - s + 1).toNat + 1 := by omega
  simp only [this, List.range_succ, List.map_append, List.map_cons, List.map_nil]
  congr 2
  omega

theorem expand_cons (s e : Int) (h : s ≤ e) : ∃ tl, expand (s, e) = s :: tl := by
  unfold expand
  have : (e - s + 1).toNat = (e - s).toNat + 1 := by omega
  rw [this, List.range_succ_eq_map]
  simp

theorem mergeFrom_head (current : Int × Int) (rest : List Int) :
    ∃ e tl, mergeFrom current rest = (current.1, e) :: tl := by
  induction rest generalizing current with
  | nil => exact ⟨current.2, [], by simp [mergeFrom]⟩
  | cons x rest ih =>
    unfold mergeFrom
    split
    · exact ih (current.1, x)
    · exact ⟨current.2, _, rfl⟩

/-- Listing the offsets of the ranges produced from `current` gives the offsets
of `current` followed by the offsets read. -/
theorem expandAll_mergeFrom (current : Int × Int) (rest : List Int) (h : current.1 ≤ current.2) :
    expandAll (mergeFrom current rest) = expand current ++ rest := by
  induction rest generalizing current with
  | nil => simp [mergeFrom, expandAll]
  | cons x rest ih =>
    unfold mergeFrom
    split
    · rename_i hx
      have h1 : current.1 ≤ x := by omega
      rw [ih (current.1, x) h1, hx, expand_succ _ _ h]
      simp
    · rw [expandAll, ih (x, x) (le_refl _), expand_single]
      simp

/-- On offsets that increase strictly and lie beyond `current`, consecutive
ranges produced are well formed and separated by a gap. -/
theorem mergeFrom_chain (current : Int × Int) (rest : List Int) (h : current.1 ≤ current.2)
    (hinc : List.Chain (fun a b => a < b) current.2 rest) :
    List.Chain' Gap (mergeFrom current rest) ∧ ∀ r ∈ mergeFrom current rest, r.1 ≤ r.2 := by
  induction rest generalizing current with
  | nil => simp [mergeFrom, h]
  | cons x rest ih =>
    rw [List.chain_cons] at hinc
    obtain ⟨hx, hrest⟩ := hinc
    unfold mergeFrom
    split
    · exact ih (current.1, x) (by simp only; omega) hrest
    · rename_i hne
      obtain ⟨hc, hv⟩ := ih (x, x) (le_refl _) hrest
      obtain ⟨e, tl, htl⟩ := mergeFrom_head (x, x) rest
      refine ⟨?_, ?_⟩
      · rw [htl] at hc hv ⊢
        refine List.Chain'.cons ?_ hc
        have := hv (x, e) (List.mem_cons_self _ _)
        simp only at this
        exact ⟨h, by simp only; omega, this⟩
      · intro r hr
        rcases List.mem_cons.mp hr with rfl | hr
        · exact h
        · exact hv r hr

theorem expand_eq_cons (s e : Int) (h : s ≤ e) :
    expand (s, e) = s :: (List.range (e - s).toNat).map (fun (k : Nat) => s + 1 + (k : Int)) := by
  rw [expand]
  have : (e - s + 1).toNat = (e - s).toNat + 1 := by omega
  rw [this, List.range_succ_eq_map]
  simp only [List.map_cons, List.map_map, Nat.cast_zero, add_zero]
  congr 1
  apply List.map_congr_left
  intro k _
  simp only [Function.comp, Nat.succ_eq_add_one]
  push_cast
  ring

/-- A run of `n` consecutive offsets after `b` extends the current range to
`b + n`. -/
theorem mergeFrom_run (n : Nat) (a b : Int) (more : List Int) :
    mergeFrom (a, b) ((List.range n).map (fun (k : Nat) => b + 1 + (k : Int)) ++ more)
      = mergeFrom (a, b + n) more := by
  induction n generalizing b with
  | zero => simp
  | succ n ih =>
    rw [List.range_succ_eq_map]
    simp only [List.map_cons, List.map_map, List.cons_append, Nat.cast_zero, add_zero]
    rw [mergeFrom_extend _ _ _ (by simp)]
    have e1 : (List.map ((fun k : Nat => b + 1 + (k : Int)) ∘ Nat.succ) (List.range n))
        = List.map (fun k : Nat => b + 1 + 1 + (k : Int)) (List.range n) := by
      apply List.map_congr_left
      intro k _
      simp only [Function.comp, Nat.succ_eq_add_one]
      push_cast
      ring
    rw [e1, ih (b + 1)]
    congr 2
    push_cast
    ring

/-- Merging the offsets of well formed, gap-separated ranges gives the ranges
back. -/
theorem mergeFrom_expandAll (s e : Int) (rs : List (Int × Int))
    (hc : List.Chain Gap (s, e) rs) :
    mergeFrom (s, e) (expandAll rs) = (s, e) :: rs := by
  induction rs generalizing s e with
  | nil => simp [expandAll, mergeFrom]
  | cons q rs ih =>
    rw [List.chain_cons] at hc
    obtain ⟨⟨_, hgap, hq⟩, hrest⟩ := hc
    simp only at hgap
    rw [expandAll, show q = (q.1, q.2) from rfl, expand_eq_cons _ _ hq, List.cons_append,
      mergeFrom_close _ _ _ (by simp only; omega), mergeFrom_run]
    have hq2 : q.1 + ((q.2 - q.1).toNat : Int) = q.2 := by omega
    rw [hq2, ih q.1 q.2 hrest]

theorem matchedRanges_expandAll (rs : List (Int × Int)) (hc : List.Chain' Gap rs)
    (hv : ∀ r ∈ rs, r.1 ≤ r.2) : matchedRanges (expandAll rs) = rs := by
  cases rs with
  | nil => simp [expandAll, matchedRanges]
  | cons q rs =>
    have hq : q.1 ≤ q.2 := hv q (List.mem_cons_self _ _)
    rw [expandAll, show q = (q.1, q.2) from rfl, expand_eq_cons _ _ hq, List.cons_append,
      matchedRanges_cons, mergeFrom_run]
    have hq2 : q.1 + ((q.2 - q.1).toNat : Int) = q.2 := by omega
    rw [hq2]
    exact mergeFrom_expandAll q.1 q.2 rs hc

theorem chain_Gap_of (rs : List (Int × Int)) (hv : ∀ r ∈ rs, r.1 ≤ r.2)
    (hc : List.Chain' (fun p q : Int × Int => p.2 + 1 < q.1) rs) : List.Chain' Gap rs := by
  induction rs with
  | nil => exact List.chain'_nil
  | cons p rs ih =>
    cases rs with
    | nil => exact List.chain'_singleton _
    | cons q rs =>
      rw [List.chain'_cons] at hc ⊢
      refine ⟨⟨hv p (by simp), hc.1, hv q (by simp)⟩, ?_⟩
      exact ih (fun r hr => hv r (List.mem_cons_of_mem _ hr)) hc.2

/-- The ranges of a strictly increasing list of offsets are well formed and
consecutive ranges are separated by a gap. -/
theorem matchedRanges_chain (xs : List Int) (h : List.Sorted (fun a b => a < b) xs) :
    List.Chain' Gap (matchedRanges xs) ∧ ∀ r ∈ matchedRanges xs, r.1 ≤ r.2 := by
  cases xs with
  | nil => simp [matchedRanges]
  | cons x rest =>
    rw [matchedRanges_cons]
    exact mergeFrom_chain (x, x) rest (le_refl _) (List.Pairwise.chain' h)

theorem expandAll_matchedRanges (xs : List Int) : expandAll (matchedRanges xs) = xs := by
  cases xs with
  | nil => simp [matchedRanges, expandAll]
  | cons x rest =>
    rw [matchedRanges_cons, expandAll_mergeFrom _ _ (le_refl _), expand_single]
    simp

/-- C5: for a strictly increasing list of offsets, `matchedRanges` returns the
unique set of maximal contiguous ranges: the integers `start..end` of the ranges,
listed in order, are exactly the input; consecutive ranges are not adjacent
(`next.start > prev.end + 1`); every list of well formed, non-adjacent ranges
listing the input is the one returned.  Empty input gives no range, a single
offset `o` gives `[(o,o)]`, and `[2,3,4,9]` gives `[(2,4),(9,9)]`. -/
theorem matchedRanges_maximal_contiguous (xs : List Int)
    (h : List.Sorted (fun a b => a < b) xs) :
    (∀ r ∈ matchedRanges xs, r.1 ≤ r.2) ∧
    expandAll (matchedRanges xs) = xs ∧
    List.Chain' (fun p q : Int × Int => p.2 + 1 < q.1) (matchedRanges xs) ∧
    (∀ rs : List (Int × Int), (∀ r ∈ rs, r.1 ≤ r.2) →
      List.Chain' (fun p q : Int × Int => p.2 + 1 < q.1) rs →
      expandAll rs = xs → rs = matchedRanges xs) ∧
    matchedRanges [] = [] ∧
    (∀ o : Int, matchedRanges [o] = [(o, o)]) ∧
    matchedRanges [2, 3, 4, 9] = [(2, 4), (9, 9)] := by
  obtain ⟨hc, hv⟩ := matchedRanges_chain xs h
  refine ⟨hv, expandAll_matchedRanges xs, hc.imp (fun _ _ hg => hg.2.1), ?_, rfl, fun o => rfl,
    by decide⟩
  intro rs hrv hrc hrx
  rw [← hrx, matchedRanges_expandAll rs (chain_Gap_of rs hrv hrc) hrv]

/-- C5, at the offsets `[2,3,4,9]`. -/
theorem matchedRanges_maximal_contiguous_witness :
    List.Sorted (fun a b : Int => a < b) [2, 3, 4, 9] ∧
    expandAll (matchedRanges [2, 3, 4, 9]) = [2, 3, 4, 9] :=
  ⟨by decide, (matchedRanges_maximal_contiguous [2, 3, 4, 9] (by decide)).2.1⟩

theorem Gap_weaken_trans (p q r : Int × Int)
    (h1 : p.1 ≤ p.2 ∧ p.2 < q.1 ∧ q.1 ≤ q.2) (h2 : q.1 ≤ q.2 ∧ q.2 < r.1 ∧ r.1 ≤ r.2) :
    p.1 ≤ p.2 ∧ p.2 < r.1 ∧ r.1 ≤ r.2 :=
  ⟨h1.1, by omega, h2.2.2⟩

/-- C6: for a strictly increasing list of offsets, the ranges of `matchedRanges`
satisfy the MatchRange invariant: every range has `start ≤ end`, the ranges are
sorted ascending by start, and they do not overlap (each range starts after the
end of every range before it). -/
theorem matchedRanges_invariant (xs : List Int) (h : List.Sorted (fun a b => a < b) xs) :
    (∀ r ∈ matchedRanges xs, r.1 ≤ r.2) ∧
    List.Sorted (fun p q : Int × Int => p.1 < q.1) (matchedRanges xs) ∧
    List.Pairwise (fun p q : Int × Int => p.2 < q.1) (matchedRanges xs) := by
  obtain ⟨hc, hv⟩ := matchedRanges_chain xs h
  have hT : List.Chain' (fun p q : Int × Int => p.1 ≤ p.2 ∧ p.2 < q.1 ∧ q.1 ≤ q.2)
      (matchedRanges xs) :=
    hc.imp (fun _ _ hg => ⟨hg.1, by have := hg.2.1; omega, hg.2.2⟩)
  have hP : List.Pairwise (fun p q : Int × Int => p.1 ≤ p.2 ∧ p.2 < q.1 ∧ q.1 ≤ q.2)
      (matchedRanges xs) := by
    haveI : IsTrans (Int × Int) (fun p q => p.1 ≤ p.2 ∧ p.2 < q.1 ∧ q.1 ≤ q.2) :=
      ⟨Gap_weaken_trans⟩
    exact List.chain'_iff_pairwise.mp hT
  exact ⟨hv, hP.imp (fun hg => by omega), hP.imp (fun hg => hg.2.1)⟩

/-- C6, at the offsets `[2,3,4,9]`. -/
theorem matchedRanges_invariant_witness :
    List.Sorted (fun a b : Int => a < b) [2, 3, 4, 9] ∧
    List.Pairwise (fun p q : Int × Int => p.2 < q.1) (matchedRanges [2, 3, 4, 9]) :=
  ⟨by decide, (matchedRanges_invariant [2, 3, 4, 9] (by decide)).2.2⟩

/-! ## `bytePosToVisibleCharPos` -/

theorem byteWalk_pos_ge (target : Int) (gr : Text) (bytePos pos : Int) :
    pos ≤ (byteWalk target gr bytePos pos).pos := by
  induction gr generalizing bytePos pos with
  | nil => simp [byteWalk]
  | cons c gr ih =>
    unfold byteWalk
    split
    · have := ih (bytePos + c.len) (pos + c.cols)
      omega
    · simp

/-- The columns consumed and the columns left always add up to the columns
there were. -/
theorem byteWalk_conserve (target : Int) (gr : Text) (bytePos pos : Int) :
    (byteWalk target gr bytePos pos).pos + totalColumns (byteWalk target gr bytePos pos).gr
      = pos + totalColumns gr := by
  induction gr generalizing bytePos pos with
  | nil => simp [byteWalk]
  | cons c gr ih =>
    unfold byteWalk
    split
    · rw [ih, totalColumns_cons]
      push_cast
      ring
    · simp

theorem byteWalk_mono (b1 b2 : Int) (h : b1 ≤ b2) (gr : Text) (bytePos pos : Int) :
    (byteWalk b1 gr bytePos pos).pos ≤ (byteWalk b2 gr bytePos pos).pos := by
  induction gr generalizing bytePos pos with
  | nil => simp [byteWalk]
  | cons c gr ih =>
    by_cases h1 : b1 > bytePos
    · have h2 : b2 > bytePos := by omega
      rw [byteWalk, if_pos h1, byteWalk, if_pos h2]
      exact ih _ _
    · rw [byteWalk, if_neg h1]
      exact byteWalk_pos_ge _ _ _ _

/-- On single-column ASCII the walk towards a byte offset inside the text stops
exactly there, at the column of the same number. -/
theorem byteWalk_ascii (target : Int) (gr : Text) (bytePos pos : Int)
    (hascii : ∀ c ∈ gr, c.len = 1 ∧ c.width = 1)
    (h1 : bytePos ≤ target) (h2 : target ≤ bytePos + gr.length) :
    byteWalk target gr bytePos pos
      = ⟨gr.drop (target - bytePos).toNat, target, pos + (target - bytePos)⟩ := by
  induction gr generalizing bytePos pos with
  | nil =>
    simp only [List.length_nil, Nat.cast_zero, add_zero] at h2
    have : target = bytePos := by omega
    subst this
    simp [byteWalk]
  | cons c gr ih =>
    by_cases h : target > bytePos
    · obtain ⟨hl, hw⟩ := hascii c (List.mem_cons_self _ _)
      have hcols : c.cols = 1 := by simp [Cluster.cols, hw]
      rw [byteWalk, if_pos h, hl, hcols]
      rw [List.length_cons] at h2
      rw [ih (bytePos + (1 : Nat)) (pos + (1 : Nat))
        (fun x hx => hascii x (List.mem_cons_of_mem _ hx)) (by omega) (by push_cast at h2 ⊢; omega)]
      have e : (target - bytePos).toNat = (target - (bytePos + (1 : Nat))).toNat + 1 := by omega
      rw [e, List.drop_succ_cons]
      congr 1
      push_cast
      ring
    · have : target = bytePos := by omega
      subst this
      simp [byteWalk]

theorem byteLen_ascii (t : Text) (hascii : ∀ c ∈ t, c.len = 1 ∧ c.width = 1) :
    byteLen t = t.length := by
  induction t with
  | nil => simp [byteLen]
  | cons c t ih =>
    rw [byteLen_cons, ih (fun x hx => hascii x (List.mem_cons_of_mem _ hx)),
      (hascii c (List.mem_cons_self _ _)).1, List.length_cons]
    omega

/-- C8: the mapping from byte offsets to columns is monotonic: for `b1 ≤ b2`,
the column computed for `b1` (start component of
`bytePosToVisibleCharPos(str, (b1, b1))`) is at most the column computed for
`b2`. -/
theorem bytePosToVisibleCharPos_monotone (str : Text) (b1 b2 : Int) (h : b1 ≤ b2) :
    (bytePosToVisibleCharPos str (b1, b1)).1 ≤ (bytePosToVisibleCharPos str (b2, b2)).1 := by
  simp only [bytePosToVisibleCharPos]
  exact byteWalk_mono b1 b2 h str 0 0

/-- C8, at the text `"世a"` (a wide cluster of three bytes, then `a`) and the
offsets 1 and 4. -/
theorem bytePosToVisibleCharPos_monotone_witness :
    (1 : Int) ≤ 4 ∧
    (bytePosToVisibleCharPos [⟨"世", 2⟩, ⟨"a", 1⟩] (1, 1)).1
      ≤ (bytePosToVisibleCharPos [⟨"世", 2⟩, ⟨"a", 1⟩] (4, 4)).1 :=
  ⟨by decide, bytePosToVisibleCharPos_monotone [⟨"世", 2⟩, ⟨"a", 1⟩] 1 4 (by decide)⟩

/-- C9: on a string of single-column ASCII (every cluster is one byte and one
column), the column of a byte offset is the offset itself:
`bytePosToVisibleCharPos(text, (a, b)) = (a, b)` for `0 ≤ a ≤ b ≤ len(text)`. -/
theorem bytePosToVisibleCharPos_ascii (text : Text)
    (hascii : ∀ c ∈ text, c.len = 1 ∧ c.width = 1) (a b : Int)
    (ha : 0 ≤ a) (hab : a ≤ b) (hb : b ≤ byteLen text) :
    bytePosToVisibleCharPos text (a, b) = (a, b) := by
  rw [byteLen_ascii text hascii] at hb
  simp only [bytePosToVisibleCharPos]
  rw [byteWalk_ascii a text 0 0 hascii ha (by omega)]
  simp only [sub_zero, zero_add]
  rw [byteWalk_ascii b (text.drop a.toNat) a a
    (fun x hx => hascii x (List.mem_of_mem_drop hx)) hab
    (by rw [List.length_drop]; omega)]
  simp

/-- C9, at `"hello world example"` and the range `(14, 16)`. -/
theorem bytePosToVisibleCharPos_ascii_witness :
    (∀ c ∈ helloWorldExample, c.len = 1 ∧ c.width = 1) ∧
    (0 : Int) ≤ 14 ∧ (14 : Int) ≤ 16 ∧ (16 : Int) ≤ byteLen helloWorldExample ∧
    bytePosToVisibleCharPos helloWorldExample (14, 16) = (14, 16) :=
  ⟨by decide, by decide, by decide, by decide,
    bytePosToVisibleCharPos_ascii helloWorldExample (by decide) 14 16
      (by decide) (by decide) (by decide)⟩

/-- C10: for every string and every byte range, also one past the end of the
string or with start after end, the columns `(start, stop)` of
`bytePosToVisibleCharPos` satisfy `0 ≤ start ≤ stop`, and both are at most the
total column width of the string. -/
theorem bytePosToVisibleCharPos_bounds (str : Text) (rng : Int × Int) :
    0 ≤ (bytePosToVisibleCharPos str rng).1 ∧
    (bytePosToVisibleCharPos str rng).1 ≤ (bytePosToVisibleCharPos str rng).2 ∧
    (bytePosToVisibleCharPos str rng).2 ≤ totalColumns str := by
  simp only [bytePosToVisibleCharPos]
  have h1 := byteWalk_pos_ge rng.1 str 0 0
  have c1 := byteWalk_conserve rng.1 str 0 0
  have h2 := byteWalk_pos_ge rng.2 (byteWalk rng.1 str 0 0).gr (byteWalk rng.1 str 0 0).bytePos
    (byteWalk rng.1 str 0 0).pos
  have c2 := byteWalk_conserve rng.2 (byteWalk rng.1 str 0 0).gr
    (byteWalk rng.1 str 0 0).bytePos (byteWalk rng.1 str 0 0).pos
  refine ⟨h1, h2, ?_⟩
  omega

/-! ## Head truncation and the last match -/

theorem byteWalk_stop (target : Int) (gr : Text) (bytePos pos : Int) (h : target ≤ bytePos) :
    byteWalk target gr bytePos pos = ⟨gr, bytePos, pos⟩ := by
  cases gr with
  | nil => rfl
  | cons c gr => rw [byteWalk, if_neg (by omega)]

/-- Walking towards the byte offset at which a cluster starts consumes exactly
the clusters before it. -/
theorem byteWalk_aligned (pre rest : Text) (bytePos pos : Int)
    (hpos : ∀ x ∈ pre, 0 < x.len) :
    byteWalk (bytePos + byteLen pre) (pre ++ rest) bytePos pos
      = ⟨rest, bytePos + byteLen pre, pos + totalColumns pre⟩ := by
  induction pre generalizing bytePos pos with
  | nil =>
    simp only [byteLen, totalColumns, List.map_nil, List.sum_nil, Nat.cast_zero, add_zero,
      List.nil_append]
    exact byteWalk_stop _ _ _ _ (le_refl _)
  | cons a pre ih =>
    have ha := hpos a (List.mem_cons_self _ _)
    rw [List.cons_append, byteWalk, if_pos (by rw [byteLen_cons]; push_cast; omega)]
    have e : bytePos + (byteLen (a :: pre) : Int) = bytePos + a.len + byteLen pre := by
      rw [byteLen_cons]; push_cast; ring
    rw [e, ih (bytePos + a.len) (pos + a.cols) (fun x hx => hpos x (List.mem_cons_of_mem _ hx)),
      totalColumns_cons]
    congr 1
    push_cast
    ring

theorem lastMatchVisualPos_aligned (pre : Text) (c : Cluster) (post : Text)
    (hpos : ∀ x ∈ pre, 0 < x.len) :
    lastMatchVisualPos (pre ++ c :: post) (byteLen pre) = totalColumns pre := by
  have := byteWalk_aligned pre (c :: post) 0 0 hpos
  simp only [zero_add] at this
  rw [lastMatchVisualPos, this]

theorem colWalk_stop (startVisualPos : Int) (gr : Text) (startBytePos currentVisualPos : Int)
    (h : startVisualPos ≤ currentVisualPos) :
    colWalk startVisualPos gr startBytePos currentVisualPos
      = ⟨gr, startBytePos, currentVisualPos⟩ := by
  cases gr with
  | nil => rfl
  | cons c gr => rw [colWalk, if_neg (by omega)]

/-- The second loop splits the text into the clusters it consumed and the
clusters it left; `startBytePos` is the byte length of the consumed part and
`currentVisualPos` its column width. -/
theorem colWalk_split (startVisualPos : Int) (text : Text) (startBytePos currentVisualPos : Int) :
    ∃ consumed, text = consumed ++ (colWalk startVisualPos text startBytePos currentVisualPos).gr ∧
      (colWalk startVisualPos text startBytePos currentVisualPos).bytePos
        = startBytePos + byteLen consumed ∧
      (colWalk startVisualPos text startBytePos currentVisualPos).pos
        = currentVisualPos + totalColumns consumed := by
  induction text generalizing startBytePos currentVisualPos with
  | nil => exact ⟨[], by simp [colWalk, byteLen, totalColumns]⟩
  | cons c gr ih =>
    unfold colWalk
    split
    · obtain ⟨d, h1, h2, h3⟩ := ih (startBytePos + c.len) (currentVisualPos + c.cols)
      refine ⟨c :: d, by rw [List.cons_append, ← h1], ?_, ?_⟩
      · rw [h2, byteLen_cons]; push_cast; ring
      · rw [h3, totalColumns_cons]; push_cast; ring
    · exact ⟨[], by simp [byteLen, totalColumns]⟩

/-- When the start column is reached within `pre`, the second loop stops inside
`pre`, at a cluster boundary whose column is at least the start column. -/
theorem colWalk_within (startVisualPos : Int) (pre rest : Text)
    (startBytePos currentVisualPos : Int)
    (h : startVisualPos ≤ currentVisualPos + totalColumns pre) :
    ∃ dropped mid, pre = dropped ++ mid ∧
      (colWalk startVisualPos (pre ++ rest) startBytePos currentVisualPos).gr = mid ++ rest ∧
      startVisualPos ≤ currentVisualPos + totalColumns dropped := by
  induction pre generalizing startBytePos currentVisualPos with
  | nil =>
    simp only [totalColumns, List.map_nil, List.sum_nil, Nat.cast_zero, add_zero] at h
    refine ⟨[], [], rfl, ?_, by simpa [totalColumns] using h⟩
    rw [List.nil_append, colWalk_stop _ _ _ _ h]
  | cons a pre ih =>
    by_cases hlt : currentVisualPos < startVisualPos
    · rw [List.cons_append, colWalk, if_pos hlt]
      obtain ⟨d, m, h1, h2, h3⟩ := ih (startBytePos + a.len) (currentVisualPos + a.cols)
        (by rw [totalColumns_cons] at h; push_cast at h; omega)
      refine ⟨a :: d, m, by rw [h1, List.cons_append], h2, ?_⟩
      rw [totalColumns_cons]; push_cast; omega
    · refine ⟨[], a :: pre, rfl, ?_, by simp [totalColumns]; omega⟩
      rw [colWalk_stop _ _ _ _ (by omega)]

/-- C3 (as amended): in the head-truncation branch (text wider than the width,
the column of the last match at least `width - 1`) with a width of at least 2,
when the last match offset is the first byte of a cluster at most one column
wide, that cluster is in the rendered output: the output is the ellipsis, then
the clusters `mid` that precede the matched cluster from the kept boundary on,
then the matched cluster `c`, then the first clusters `kept` of what follows. -/
theorem truncateWithMatches_head_keeps_last_match (matchIndexes : List Int)
    (pre : Text) (c : Cluster) (post : Text) (width : Int)
    (hpos : ∀ x ∈ pre, 0 < x.len)
    (hlast : matchIndexes.getLast? = some (byteLen pre : Int))
    (hwide : width < StringWidth (pre ++ c :: post))
    (hhead : width - 1 ≤ lastMatchVisualPos (pre ++ c :: post) (byteLen pre))
    (h2 : 2 ≤ width) (hc : c.width ≤ 1) :
    ∃ dropped mid kept rest, pre = dropped ++ mid ∧ post = kept ++ rest ∧
      truncateWithMatches matchIndexes (pre ++ c :: post) width
        = ellipsis :: (mid ++ c :: kept) := by
  have hL := lastMatchVisualPos_aligned pre c post hpos
  rw [hL] at hhead
  have hS : startVisualPos (pre ++ c :: post) (byteLen pre) width
      = (totalColumns pre : Int) - (width - 1) + 1 := by
    rw [startVisualPos, hL]
    omega
  obtain ⟨dropped, mid, hsplit, hgr, hreach⟩ :=
    colWalk_within (startVisualPos (pre ++ c :: post) (byteLen pre) width) pre (c :: post) 0 0
      (by rw [hS]; omega)
  rw [hS] at hreach hgr
  have hmid : (StringWidth (mid ++ [c]) : Int) ≤ width - 1 := by
    have e1 : totalColumns pre = totalColumns dropped + totalColumns mid := by
      rw [hsplit, totalColumns_append]
    have e2 := StringWidth_le_totalColumns mid
    have e3 : StringWidth ([] : Text) = 0 := rfl
    rw [StringWidth_append, StringWidth_cons, e3]
    omega
  have hres : truncateWithMatches matchIndexes (pre ++ c :: post) width
      = ellipsis :: Truncate (mid ++ c :: post) (width - 1) [] := by
    unfold truncateWithMatches
    rw [if_neg (by omega)]
    simp only []
    rw [if_neg (by omega), hlast]
    simp only []
    rw [if_neg (by rw [hL]; omega), hS, hgr]
  rw [hres, Truncate_nil_tail]
  split
  · exact ⟨dropped, mid, post, [], hsplit, by simp, rfl⟩
  · obtain ⟨rest, hrest⟩ := takeFit_isInit ((width - 1).toNat - StringWidth (mid ++ [c])) post
    refine ⟨dropped, mid, _, rest, hsplit, hrest, ?_⟩
    have e : mid ++ c :: post = (mid ++ [c]) ++ post := by simp
    rw [e, takeFit_append _ _ _ (by omega)]
    simp

/-- C3 (as amended), at the spec's example: `"hello world example"`, matches
`[14,15,16]`, width 10; the last match is the `p` at byte 16. -/
theorem truncateWithMatches_head_keeps_last_match_witness :
    (∀ x ∈ ascii "hello world exam", 0 < x.len) ∧
    (10 : Int) < StringWidth (ascii "hello world exam" ++ ⟨"p", 1⟩ :: ascii "le") ∧
    ∃ dropped mid kept rest, ascii "hello world exam" = dropped ++ mid ∧
      ascii "le" = kept ++ rest ∧
      truncateWithMatches [14, 15, 16] (ascii "hello world exam" ++ ⟨"p", 1⟩ :: ascii "le") 10
        = ellipsis :: (mid ++ ⟨"p", 1⟩ :: kept) :=
  ⟨by decide, by decide,
    truncateWithMatches_head_keeps_last_match [14, 15, 16] (ascii "hello world exam") ⟨"p", 1⟩
      (ascii "le") 10 (by decide) (by decide) (by decide) (by decide) (by decide) (by decide)⟩

/-- C3 (as stated) fails at width 1: for `"abc"` with the match offset 1 the
text is wider than the width, the column 1 of the last match is at least
`width - 1 = 0`, so the head branch is taken, and the output is the ellipsis
alone: the matched cluster `b` is not in it. -/
theorem truncateWithMatches_head_width_one :
    (1 : Int) < StringWidth (ascii "abc") ∧
    ([1] : List Int).getLast? = some 1 ∧
    (1 : Int) - 1 ≤ lastMatchVisualPos (ascii "abc") 1 ∧
    truncateWithMatches [1] (ascii "abc") 1 = [ellipsis] ∧
    (⟨"b", 1⟩ : Cluster) ∉ truncateWithMatches [1] (ascii "abc") 1 := by
  decide

/-- The head branch does not count the width of the matched cluster: for
`"abcdefgh世"` with the match at byte 8 (the wide `世`) and width 5 the output is
`"…fgh"`, without the matched cluster. -/
theorem truncateWithMatches_head_wide_match :
    truncateWithMatches [8] (ascii "abcdefgh" ++ [⟨"世", 2⟩]) 5 = ellipsis :: ascii "fgh" := by
  decide

/-- A match offset inside a cluster makes the first loop pass that cluster:
for `"éabc"` (`é` is one cluster of two bytes) with the match offset 1 and
width 2 the output is `"…a"`, without the cluster holding byte 1. -/
theorem truncateWithMatches_head_offset_inside_cluster :
    truncateWithMatches [1] (⟨"é", 1⟩ :: ascii "abc") 2 = ellipsis :: ascii "a" := by
  decide

/-! ## Highlight ranges of `View` -/

/-- C4 at `"hello world example"`, matches `[14,15,16]`, width 10: the title is
rendered as `"…rld examp"`, the matched clusters `a`, `m`, `p` (clusters 14 to
16 of the title) are displayed at columns 7 to 9 of it, which is what the byte
range gives once shifted by the 8 dropped bytes and the 3 bytes of the
ellipsis; `View` passes the unshifted range `(14, 16)` and highlights
`[10, 11)`, a column past the end of the rendered text. -/
theorem viewRanges_head_truncation_unshifted :
    truncateWithMatches [14, 15, 16] helloWorldExample 10 = ellipsis :: ascii "rld examp" ∧
    ((truncateWithMatches [14, 15, 16] helloWorldExample 10).drop 7).take 3
      = (helloWorldExample.drop 14).take 3 ∧
    bytePosToVisibleCharPos (truncateWithMatches [14, 15, 16] helloWorldExample 10)
      (14 - 8 + 3, 16 - 8 + 3) = (7, 9) ∧
    matchedRanges [14, 15, 16] = [(14, 16)] ∧
    viewRanges [14, 15, 16] helloWorldExample 10 = [(10, 11)] := by
  decide

/-- C7 at the untruncated text `"a世b"` (`世` is one cluster of three bytes, two
columns wide) with the match offset 1: the matched cluster is displayed in
columns 1 and 2, and `View` highlights the half-open range `[1, 2)`, which
leaves out column 2. -/
theorem viewRanges_wide_last_cluster :
    truncateWithMatches [1] [⟨"a", 1⟩, ⟨"世", 2⟩, ⟨"b", 1⟩] 20 = [⟨"a", 1⟩, ⟨"世", 2⟩, ⟨"b", 1⟩] ∧
    byteLen [⟨"a", 1⟩] = 1 ∧
    totalColumns [⟨"a", 1⟩] = 1 ∧ totalColumns [⟨"a", 1⟩, ⟨"世", 2⟩] = 3 ∧
    bytePosToVisibleCharPos [⟨"a", 1⟩, ⟨"世", 2⟩, ⟨"b", 1⟩] (1, 1) = (1, 1) ∧
    viewRanges [1] [⟨"a", 1⟩, ⟨"世", 2⟩, ⟨"b", 1⟩] 20 = [(1, 2)] := by
  decide

/-! ## `truncateWithMatches`: fixed point, tail truncation, degenerate inputs -/

/-- C11: truncation is idempotent: for every text, every two match lists and
every width, truncating the result of `truncateWithMatches(text, w)` again with
width `w` returns it unchanged. -/
theorem truncateWithMatches_idempotent (m m2 : List Int) (text : Text) (width : Int) :
    truncateWithMatches m2 (truncateWithMatches m text width) width
      = truncateWithMatches m text width := by
  by_cases hw : 0 < width
  · exact truncateWithMatches_of_fits m2 _ width hw
      (truncateWithMatches_width_bound m text width (by omega))
  · have e : truncateWithMatches m text width = [] := by
      unfold truncateWithMatches
      rw [if_pos (by omega)]
    rw [e]
    unfold truncateWithMatches
    rw [if_pos (by omega)]

/-- Without matches a text wider than the width is handed to `Truncate` with
the ellipsis as tail. -/
theorem truncateWithMatches_no_matches (text : Text) (width : Int)
    (hw : 0 < width) (hwide : width < StringWidth text) :
    truncateWithMatches [] text width = Truncate text width [ellipsis] := by
  unfold truncateWithMatches
  rw [if_neg (by omega)]
  simp only []
  rw [if_neg (by omega)]
  rfl

/-- C12: for a text wider than `availableColumns ≥ 2` and no matches, the result
is the longest prefix of whole clusters of the text whose width fits in
`availableColumns - 1` (every prefix of the text that fits is a prefix of the
part kept), followed by exactly one ellipsis. -/
theorem truncateWithMatches_tail_truncation (text : Text) (width : Int)
    (h2 : 2 ≤ width) (hwide : width < StringWidth text) :
    ∃ kept dropped, text = kept ++ dropped ∧
      (StringWidth kept : Int) ≤ width - 1 ∧
      (∀ p q, text = p ++ q → (StringWidth p : Int) ≤ width - 1 → ∃ r, kept = p ++ r) ∧
      truncateWithMatches [] text width = kept ++ [ellipsis] := by
  obtain ⟨dropped, hd⟩ := takeFit_isInit (width - 1).toNat text
  refine ⟨takeFit (width - 1).toNat text, dropped, hd, ?_, ?_, ?_⟩
  · have := takeFit_width (width - 1).toNat text
    omega
  · intro p q hpq hp
    refine ⟨takeFit ((width - 1).toNat - StringWidth p) q, ?_⟩
    rw [hpq, takeFit_append _ _ _ (by omega)]
  · rw [truncateWithMatches_no_matches text width (by omega) hwide, Truncate,
      if_neg (by omega), StringWidth_ellipsis, if_neg (by push_cast; omega)]
    rfl

/-- C12, at the spec's example: `"short"`, no matches, width 3 gives `"sh…"`. -/
theorem truncateWithMatches_tail_truncation_witness :
    (2 : Int) ≤ 3 ∧ (3 : Int) < StringWidth (ascii "short") ∧
    truncateWithMatches [] (ascii "short") 3 = ascii "sh" ++ [ellipsis] ∧
    ∃ kept dropped, ascii "short" = kept ++ dropped ∧
      (StringWidth kept : Int) ≤ 3 - 1 ∧
      (∀ p q, ascii "short" = p ++ q → (StringWidth p : Int) ≤ 3 - 1 → ∃ r, kept = p ++ r) ∧
      truncateWithMatches [] (ascii "short") 3 = kept ++ [ellipsis] :=
  ⟨by decide, by decide, by decide,
    truncateWithMatches_tail_truncation (ascii "short") 3 (by decide) (by decide)⟩

/-- C13: with a zero or negative width the result is the empty string, for
every text and every match list; and an empty text gives an empty result
whatever the matches and the width. -/
theorem truncateWithMatches_empty (m : List Int) (text : Text) (width : Int) :
    (width ≤ 0 → truncateWithMatches m text width = []) ∧
    truncateWithMatches m [] width = [] := by
  constructor
  · intro h
    unfold truncateWithMatches
    rw [if_pos h]
  · unfold truncateWithMatches
    split
    · rfl
    · simp only []
      rw [if_pos (by simp [StringWidth]; omega)]

/-- C13, at `"short"` with matches `[1]` and width `-2`. -/
theorem truncateWithMatches_empty_witness :
    (-2 : Int) ≤ 0 ∧ truncateWithMatches [1] (ascii "short") (-2) = [] :=
  ⟨by decide, (truncateWithMatches_empty [1] (ascii "short") (-2)).1 (by decide)⟩

theorem mem_takeFit (k : Nat) (s : Text) (c : Cluster) (h : c ∈ takeFit k s) : c ∈ s := by
  obtain ⟨d, hd⟩ := takeFit_isInit k s
  rw [hd]
  exact List.mem_append_left _ h

/-- C15: for a text wider than one column and no matches, with
`availableColumns = 1` no column is left once the ellipsis column is reserved,
and the result is the text truncated to `availableColumns`: the longest prefix
of whole clusters of the text that fits in one column, with no ellipsis added
(the result holds an ellipsis only if the text does). -/
theorem truncateWithMatches_width_one (text : Text) (hwide : (1 : Int) < StringWidth text) :
    truncateWithMatches [] text 1 = takeFit 1 text ∧
    (∃ dropped, text = truncateWithMatches [] text 1 ++ dropped) ∧
    StringWidth (truncateWithMatches [] text 1) ≤ 1 ∧
    (∀ p q, text = p ++ q → StringWidth p ≤ 1 →
      ∃ r, truncateWithMatches [] text 1 = p ++ r) ∧
    (ellipsis ∉ text → ellipsis ∉ truncateWithMatches [] text 1) := by
  have e : truncateWithMatches [] text 1 = takeFit 1 text := by
    rw [truncateWithMatches_no_matches text 1 (by omega) hwide, Truncate,
      if_neg (by omega), StringWidth_ellipsis, if_pos (by norm_num)]
    rfl
  rw [e]
  refine ⟨rfl, takeFit_isInit 1 text, takeFit_width 1 text, ?_, ?_⟩
  · intro p q hpq hp
    refine ⟨takeFit (1 - StringWidth p) q, ?_⟩
    rw [hpq, takeFit_append _ _ _ hp]
  · intro hne hmem
    exact hne (mem_takeFit 1 text ellipsis hmem)

/-- C15, at `"short"`: width 1 and no matches give `"s"`. -/
theorem truncateWithMatches_width_one_witness :
    (1 : Int) < StringWidth (ascii "short") ∧
    truncateWithMatches [] (ascii "short") 1 = ascii "s" :=
  ⟨by decide,
    (truncateWithMatches_width_one (ascii "short") (by decide)).1.trans (by decide)⟩

/-! ## The choice between tail and head truncation -/

/-- C17 (as amended): for a width of at least 1, a text wider than it and a
non-empty match list, the branch is chosen by a strict comparison: if the
column of the last match is below `width - 1` the result is the tail truncation
the same text gets with no matches, and otherwise (the tie `width - 1`
included) it is the head-truncated form, which begins with the ellipsis. -/
theorem truncateWithMatches_branch (m : List Int) (lastMatchPos : Int) (text : Text)
    (width : Int) (hlast : m.getLast? = some lastMatchPos)
    (hw : 1 ≤ width) (hwide : width < StringWidth text) :
    (lastMatchVisualPos text lastMatchPos < width - 1 →
      truncateWithMatches m text width = truncateWithMatches [] text width) ∧
    (width - 1 ≤ lastMatchVisualPos text lastMatchPos →
      ∃ t, truncateWithMatches m text width = ellipsis :: t) := by
  have e : truncateWithMatches m text width
      = if lastMatchVisualPos text lastMatchPos < width - 1 then Truncate text width [ellipsis]
        else ellipsis :: Truncate
          (colWalk (startVisualPos text lastMatchPos width) text 0 0).gr (width - 1) [] := by
    unfold truncateWithMatches
    rw [if_neg (by omega)]
    simp only []
    rw [if_neg (by omega), hlast]
  constructor
  · intro h
    rw [e, if_pos h, truncateWithMatches_no_matches text width (by omega) hwide]
  · intro h
    rw [e, if_neg (by omega)]
    exact ⟨_, rfl⟩

/-- C17 (as amended), at `"hello world example"` with width 10: the match at
byte 8 (column 8, below 9) gives the tail truncation, the match at byte 9 (the
tie) the head truncation. -/
theorem truncateWithMatches_branch_witness :
    ([9] : List Int).getLast? = some 9 ∧ (1 : Int) ≤ 10 ∧
    (10 : Int) < StringWidth helloWorldExample ∧
    (10 : Int) - 1 ≤ lastMatchVisualPos helloWorldExample 9 ∧
    truncateWithMatches [8] helloWorldExample 10 = truncateWithMatches [] helloWorldExample 10 ∧
    ∃ t, truncateWithMatches [9] helloWorldExample 10 = ellipsis :: t :=
  ⟨by decide, by decide, by decide, by decide,
    (truncateWithMatches_branch [8] 8 helloWorldExample 10 (by decide) (by decide)
      (by decide)).1 (by decide),
    (truncateWithMatches_branch [9] 9 helloWorldExample 10 (by decide) (by decide)
      (by decide)).2 (by decide)⟩

/-- C17 (as stated) fails at width 0: `"abc"` is wider than 0, the match list
`[1]` is not empty and the column 1 of the last match is at least `0 - 1`, yet
the result is the empty string, which does not begin with an ellipsis. -/
theorem truncateWithMatches_branch_width_zero :
    (0 : Int) < StringWidth (ascii "abc") ∧
    ([1] : List Int).getLast? = some 1 ∧
    (0 : Int) - 1 ≤ lastMatchVisualPos (ascii "abc") 1 ∧
    truncateWithMatches [1] (ascii "abc") 0 = [] ∧
    ¬ ∃ t, truncateWithMatches [1] (ascii "abc") 0 = ellipsis :: t := by
  refine ⟨by decide, by decide, by decide, by decide, ?_⟩
  rintro ⟨t, ht⟩
  have : truncateWithMatches [1] (ascii "abc") 0 = [] := by decide
  rw [this] at ht
  exact List.noConfusion ht

/-! ## Absence of run-time failures -/

/-- C19: `truncateWithMatches` never fails: for every text, every match list
(whatever the offsets) and every width, the last match offset is read only from
a non-empty list and the slice `text[startBytePos:]` is in bounds, so the
checked function returns the result; and for every start column the offset
`startBytePos` reached by the second loop is a cluster boundary of the text
with `0 ≤ startBytePos ≤ len(text)`. -/
theorem truncateWithMatches_never_fails (m : List Int) (text : Text) (width : Int) :
    truncateWithMatchesChecked m text width = some (truncateWithMatches m text width) ∧
    ∀ startVisualPos : Int,
      (∃ consumed, text = consumed ++ (colWalk startVisualPos text 0 0).gr ∧
        (colWalk startVisualPos text 0 0).bytePos = byteLen consumed) ∧
      0 ≤ (colWalk startVisualPos text 0 0).bytePos ∧
      (colWalk startVisualPos text 0 0).bytePos ≤ byteLen text := by
  have hb : ∀ startVisualPos : Int,
      (∃ consumed, text = consumed ++ (colWalk startVisualPos text 0 0).gr ∧
        (colWalk startVisualPos text 0 0).bytePos = byteLen consumed) ∧
      0 ≤ (colWalk startVisualPos text 0 0).bytePos ∧
      (colWalk startVisualPos text 0 0).bytePos ≤ byteLen text := by
    intro sv
    obtain ⟨consumed, h1, h2, _⟩ := colWalk_split sv text 0 0
    rw [zero_add] at h2
    have hlen : byteLen text = byteLen consumed + byteLen (colWalk sv text 0 0).gr := by
      conv_lhs => rw [h1]
      exact byteLen_append _ _
    exact ⟨⟨consumed, h1, h2⟩, by omega, by omega⟩
  refine ⟨?_, hb⟩
  unfold truncateWithMatchesChecked truncateWithMatches
  split
  · rfl
  · simp only []
    split
    · rfl
    · rw [← List.getLast?_eq_getElem?]
      cases hm : m.getLast? with
      | none =>
        have : m = [] := List.getLast?_eq_none_iff.mp hm
        subst this
        simp
      | some lastMatchPos =>
        have hne : m.length ≠ 0 := by
          intro h0
          rw [List.length_eq_zero.mp h0] at hm
          simp at hm
        rw [if_neg hne]
        simp only []
        split
        · rfl
        · rw [if_pos (hb _).2]

/-! ## Highlight ranges and removed matches -/

/-- `View` builds one highlight range for every merged match range. -/
theorem viewRanges_length (m : List Int) (title : Text) (availableTitleWidth : Int) :
    (viewRanges m title availableTitleWidth).length = (matchedRanges m).length := by
  unfold viewRanges
  simp only []
  split
  · simp
  · rename_i h
    have : m = [] := List.length_eq_zero.mp (by omega)
    subst this
    simp [matchedRanges]

/-- C14 at `"hello world example"`, matches `[0, 16]`, width 10: the title is
rendered as `"…rld examp"`, so the match at byte 0 (the `h`) lies in the 8
bytes that truncation removed; `View` still builds a range for it, `[0, 1)`,
which is the column of the ellipsis, and the highlight ranges are as many as
the merged match ranges. -/
theorem viewRanges_removed_match_kept :
    truncateWithMatches [0, 16] helloWorldExample 10 = ellipsis :: ascii "rld examp" ∧
    truncateWithMatches [0, 16] helloWorldExample 10
      = ellipsis :: (helloWorldExample.drop 8).take 9 ∧
    matchedRanges [0, 16] = [(0, 0), (16, 16)] ∧
    viewRanges [0, 16] helloWorldExample 10 = [(0, 1), (10, 11)] ∧
    (viewRanges [0, 16] helloWorldExample 10).length = (matchedRanges [0, 16]).length := by
  decide

/-! ## `bytePosToVisibleCharPos` and the reference `columnOf` -/

theorem columnOfFrom_zero (targetByte offset : Int) (gr : Text) (h : targetByte ≤ offset) :
    columnOfFrom targetByte offset gr = 0 := by
  induction gr generalizing offset with
  | nil => rfl
  | cons c gr ih =>
    rw [columnOfFrom, if_neg (by omega), ih (offset + c.len) (by omega)]
    rfl

theorem byteWalk_pos_eq (target : Int) (gr : Text) (bytePos pos : Int) :
    (byteWalk target gr bytePos pos).pos = pos + columnOfFrom target bytePos gr := by
  induction gr generalizing bytePos pos with
  | nil => simp [byteWalk, columnOfFrom]
  | cons c gr ih =>
    by_cases h : target > bytePos
    · rw [byteWalk, if_pos h, ih, columnOfFrom, if_pos (by omega)]
      ring
    · rw [byteWalk, if_neg h, columnOfFrom_zero target bytePos (c :: gr) (by omega)]
      simp

/-- The clusters that start below `b` are those that start below `a`, consumed
by the walk towards `a`, and those the walk towards `b` goes on to consume. -/
theorem columnOfFrom_split (a b : Int) (h : a ≤ b) (gr : Text) (offset pos : Int) :
    columnOfFrom b offset gr
      = columnOfFrom a offset gr
        + columnOfFrom b (byteWalk a gr offset pos).bytePos (byteWalk a gr offset pos).gr := by
  induction gr generalizing offset pos with
  | nil => simp [byteWalk, columnOfFrom]
  | cons c gr ih =>
    by_cases h1 : a > offset
    · rw [byteWalk, if_pos h1, columnOfFrom, if_pos (by omega), columnOfFrom, if_pos (by omega),
        ih (offset + c.len) (pos + c.cols)]
      ring
    · rw [byteWalk, if_neg h1, columnOfFrom_zero a offset (c :: gr) (by omega)]
      simp

theorem columnOfFrom_all (targetByte offset : Int) (gr : Text)
    (h : offset + byteLen gr < targetByte) :
    columnOfFrom targetByte offset gr = totalColumns gr := by
  induction gr generalizing offset with
  | nil => simp [columnOfFrom, totalColumns]
  | cons c gr ih =>
    rw [byteLen_cons] at h
    push_cast at h
    rw [columnOfFrom, if_pos (by omega), ih (offset + c.len) (by omega), totalColumns_cons]
    push_cast
    ring

/-- C18: `bytePosToVisibleCharPos` is the reference `columnOf` applied to both
ends: for every string and every range `(a, b)` with `a ≤ b` it returns
`(columnOf a, columnOf b)`, where `columnOf t` is the sum of
`max(1, displayWidth(cluster))` over the clusters starting below byte `t`.  A
double-width cluster at the start gives column 2 just after it, and beyond the
length of the string `columnOf` is the total column width. -/
theorem bytePosToVisibleCharPos_eq_columnOf (str : Text) (a b : Int) (h : a ≤ b) :
    bytePosToVisibleCharPos str (a, b) = (columnOf str a, columnOf str b) ∧
    (∀ (c : Cluster) (rest : Text), c.width = 2 → 0 < c.len →
      columnOf (c :: rest) c.len = 2) ∧
    (∀ t : Int, (byteLen str : Int) < t → columnOf str t = totalColumns str) := by
  refine ⟨?_, ?_, ?_⟩
  · simp only [bytePosToVisibleCharPos, columnOf]
    rw [byteWalk_pos_eq b, byteWalk_pos_eq a, columnOfFrom_split a b h str 0 0]
    simp
  · intro c rest hw hl
    rw [columnOf, columnOfFrom, if_pos (by omega), columnOfFrom_zero _ _ _ (by omega)]
    simp [Cluster.cols, hw]
  · intro t ht
    exact columnOfFrom_all t 0 str (by omega)

/-- C18, at the text `"世a"` (a wide cluster of three bytes, then `a`) and the
range `(3, 4)`. -/
theorem bytePosToVisibleCharPos_eq_columnOf_witness :
    (3 : Int) ≤ 4 ∧
    bytePosToVisibleCharPos [⟨"世", 2⟩, ⟨"a", 1⟩] (3, 4)
      = (columnOf [⟨"世", 2⟩, ⟨"a", 1⟩] 3, columnOf [⟨"世", 2⟩, ⟨"a", 1⟩] 4) ∧
    columnOf [⟨"世", 2⟩, ⟨"a", 1⟩] 3 = 2 :=
  ⟨by decide,
    (bytePosToVisibleCharPos_eq_columnOf [⟨"世", 2⟩, ⟨"a", 1⟩] 3 4 (by decide)).1,
    by decide⟩

/-! ## `Overlay.BringToFront` -/

theorem bringToFrontLoop_not_found (dialogID : String) (dialogs : List Model) (i : Nat)
    (rest : List Model) (h : ∀ x ∈ rest, x.ID ≠ dialogID) :
    bringToFrontLoop dialogID dialogs i rest = dialogs := by
  induction rest generalizing i with
  | nil => rfl
  | cons x rest ih =>
    rw [bringToFrontLoop, if_neg (h x (List.mem_cons_self _ _))]
    exact ih (i + 1) (fun y hy => h y (List.mem_cons_of_mem _ hy))

theorem bringToFrontLoop_found (dialogID : String) (visited pre : List Model) (dlg : Model)
    (post : List Model) (hpre : ∀ x ∈ pre, x.ID ≠ dialogID) (hdlg : dlg.ID = dialogID) :
    bringToFrontLoop dialogID (visited ++ pre ++ dlg :: post) visited.length (pre ++ dlg :: post)
      = visited ++ pre ++ post ++ [dlg] := by
  induction pre generalizing visited with
  | nil =>
    simp only [List.append_nil, List.nil_append]
    rw [bringToFrontLoop, if_pos hdlg]
    simp [List.take_append_eq_append_take, List.drop_append_eq_append_drop]
  | cons x pre ih =>
    rw [List.cons_append, bringToFrontLoop, if_neg (hpre x (List.mem_cons_self _ _))]
    have := ih (visited ++ [x]) (fun y hy => hpre y (List.mem_cons_of_mem _ hy))
    simp only [List.length_append, List.length_singleton, List.append_assoc,
      List.singleton_append] at this
    simpa using this

/-- The first dialog with a given ID splits the stack. -/
theorem exists_first_with_ID (dialogID : String) (dialogs : List Model)
    (h : ∃ x ∈ dialogs, x.ID = dialogID) :
    ∃ pre dlg post, dialogs = pre ++ dlg :: post ∧ (∀ x ∈ pre, x.ID ≠ dialogID) ∧
      dlg.ID = dialogID := by
  induction dialogs with
  | nil => simp at h
  | cons a l ih =>
    by_cases ha : a.ID = dialogID
    · exact ⟨[], a, l, rfl, by simp, ha⟩
    · obtain ⟨x, hx, hxid⟩ := h
      have hx2 : x ∈ l := by
        rcases List.mem_cons.mp hx with rfl | hx
        · exact absurd hxid ha
        · exact hx
      obtain ⟨pre, dlg, post, h1, h2, h3⟩ := ih ⟨x, hx2, hxid⟩
      refine ⟨a :: pre, dlg, post, by rw [h1, List.cons_append], ?_, h3⟩
      intro y hy
      rcases List.mem_cons.mp hy with rfl | hy
      · exact ha
      · exact h2 y hy

/-- C16: `BringToFront(id)` brings the dialog with that ID to the front: if a
dialog of the stack has the ID, the result is the old stack with the first
dialog of that ID moved to the end, so the last (active) dialog has the ID, the
length is the same and the other dialogs keep their order; if no dialog has the
ID the stack is unchanged. -/
theorem BringToFront_moves_to_end (d : Overlay) (dialogID : String) :
    ((∃ x ∈ d.dialogs, x.ID = dialogID) →
      ∃ pre dlg post, d.dialogs = pre ++ dlg :: post ∧ (∀ x ∈ pre, x.ID ≠ dialogID) ∧
        dlg.ID = dialogID ∧
        (d.BringToFront dialogID).dialogs = pre ++ post ++ [dlg] ∧
        (d.BringToFront dialogID).dialogs.getLast? = some dlg ∧
        (d.BringToFront dialogID).dialogs.length = d.dialogs.length) ∧
    ((∀ x ∈ d.dialogs, x.ID ≠ dialogID) → d.BringToFront dialogID = d) := by
  constructor
  · intro h
    obtain ⟨pre, dlg, post, h1, h2, h3⟩ := exists_first_with_ID dialogID d.dialogs h
    have hres : (d.BringToFront dialogID).dialogs = pre ++ post ++ [dlg] := by
      have := bringToFrontLoop_found dialogID [] pre dlg post h2 h3
      simp only [List.nil_append, List.length_nil] at this
      rw [Overlay.BringToFront, h1]
      exact this
    refine ⟨pre, dlg, post, h1, h2, h3, hres, ?_, ?_⟩
    · rw [hres]; simp
    · rw [hres, h1]; simp
  · intro h
    cases d with
    | mk dialogs =>
      simp only [Overlay.BringToFront]
      rw [bringToFrontLoop_not_found dialogID dialogs 0 dialogs h]

/-- C16, at the stack `a, b, c, b` and the ID `b`: the first `b` moves to the
end. -/
theorem BringToFront_moves_to_end_witness :
    (∃ x ∈ (Overlay.mk [⟨"a", 0⟩, ⟨"b", 1⟩, ⟨"c", 2⟩, ⟨"b", 3⟩]).dialogs, x.ID = "b") ∧
    (Overlay.BringToFront ⟨[⟨"a", 0⟩, ⟨"b", 1⟩, ⟨"c", 2⟩, ⟨"b", 3⟩]⟩ "b").dialogs
      = [⟨"a", 0⟩, ⟨"c", 2⟩, ⟨"b", 3⟩, ⟨"b", 1⟩] ∧
    ∃ pre dlg post,
      (Overlay.mk [⟨"a", 0⟩, ⟨"b", 1⟩, ⟨"c", 2⟩, ⟨"b", 3⟩]).dialogs = pre ++ dlg :: post ∧
      (∀ x ∈ pre, x.ID ≠ "b") ∧ dlg.ID = "b" ∧
      (Overlay.BringToFront ⟨[⟨"a", 0⟩, ⟨"b", 1⟩, ⟨"c", 2⟩, ⟨"b", 3⟩]⟩ "b").dialogs
        = pre ++ post ++ [dlg] ∧
      (Overlay.BringToFront ⟨[⟨"a", 0⟩, ⟨"b", 1⟩, ⟨"c", 2⟩, ⟨"b", 3⟩]⟩ "b").dialogs.getLast?
        = some dlg ∧
      (Overlay.BringToFront ⟨[⟨"a", 0⟩, ⟨"b", 1⟩, ⟨"c", 2⟩, ⟨"b", 3⟩]⟩ "b").dialogs.length
        = (Overlay.mk [⟨"a", 0⟩, ⟨"b", 1⟩, ⟨"c", 2⟩, ⟨"b", 3⟩]).dialogs.length :=
  ⟨⟨⟨"b", 1⟩, by decide, rfl⟩, by decide,
    (BringToFront_moves_to_end ⟨[⟨"a", 0⟩, ⟨"b", 1⟩, ⟨"c", 2⟩, ⟨"b", 3⟩]⟩ "b").1
      ⟨⟨"b", 1⟩, by decide, rfl⟩⟩

/-! ## `FormatTimeAgo` -/

theorem timeAgoCase_minutes (timestamp seconds minutes hours : Int) (hts : timestamp ≠ 0)
    (n : Int) (h : timeAgoCase timestamp seconds minutes hours = .minutes n) :
    2 ≤ n ∧ n ≤ 59 := by
  unfold timeAgoCase at h
  rw [if_neg hts] at h
  simp only [] at h
  repeat' split at h
  all_goals first | (injection h with h; omega) | (exact TimeAgo.noConfusion h)

theorem timeAgoCase_hours (timestamp seconds minutes hours : Int) (hts : timestamp ≠ 0)
    (n : Int) (h : timeAgoCase timestamp seconds minutes hours = .hours n) :
    2 ≤ n ∧ n ≤ 23 := by
  unfold timeAgoCase at h
  rw [if_neg hts] at h
  simp only [] at h
  repeat' split at h
  all_goals first | (injection h with h; omega) | (exact TimeAgo.noConfusion h)

theorem timeAgoCase_days (timestamp seconds minutes hours : Int) (hts : timestamp ≠ 0)
    (n : Int) (h : timeAgoCase timestamp seconds minutes hours = .days n) :
    2 ≤ n ∧ n ≤ 6 := by
  unfold timeAgoCase at h
  rw [if_neg hts] at h
  simp only [] at h
  repeat' split at h
  all_goals first | (injection h with h; omega) | (exact TimeAgo.noConfusion h)

theorem timeAgoCase_weeks (timestamp seconds minutes hours : Int) (hts : timestamp ≠ 0)
    (n : Int) (h : timeAgoCase timestamp seconds minutes hours = .weeks n) :
    2 ≤ n ∧ n ≤ 3 := by
  unfold timeAgoCase at h
  rw [if_neg hts] at h
  simp only [] at h
  repeat' split at h
  all_goals first | (injection h with h; omega) | (exact TimeAgo.noConfusion h)

theorem timeAgoCase_justNow (timestamp seconds minutes hours : Int) (hts : timestamp ≠ 0)
    (h : seconds < 60) : timeAgoCase timestamp seconds minutes hours = .justNow := by
  unfold timeAgoCase
  rw [if_neg hts]
  simp only []
  rw [if_pos h]

theorem timeAgoCase_never (seconds minutes hours : Int) :
    timeAgoCase 0 seconds minutes hours = .never := by
  unfold timeAgoCase
  rw [if_pos rfl]

/-- C20: `FormatTimeAgo` never prints a plural unit with a count below 2: for
every non-zero timestamp and whatever the clock gives, `N minutes ago` has
`2 ≤ N ≤ 59`, `N hours ago` has `2 ≤ N ≤ 23`, `N days ago` has `2 ≤ N ≤ 6` and
`N weeks ago` has `2 ≤ N ≤ 3`; an age under 60 seconds (a future timestamp
included) gives `just now`, and the timestamp 0 gives `never`. -/
theorem FormatTimeAgo_plural_counts (timestamp seconds minutes hours : Int)
    (hts : timestamp ≠ 0) :
    (∀ n, timeAgoCase timestamp seconds minutes hours = .minutes n → 2 ≤ n ∧ n ≤ 59) ∧
    (∀ n, timeAgoCase timestamp seconds minutes hours = .hours n → 2 ≤ n ∧ n ≤ 23) ∧
    (∀ n, timeAgoCase timestamp seconds minutes hours = .days n → 2 ≤ n ∧ n ≤ 6) ∧
    (∀ n, timeAgoCase timestamp seconds minutes hours = .weeks n → 2 ≤ n ∧ n ≤ 3) ∧
    (seconds < 60 → ∀ formatted,
      FormatTimeAgo timestamp seconds minutes hours formatted = "just now") ∧
    (∀ formatted, FormatTimeAgo 0 seconds minutes hours formatted = "never") := by
  refine ⟨timeAgoCase_minutes _ _ _ _ hts, timeAgoCase_hours _ _ _ _ hts,
    timeAgoCase_days _ _ _ _ hts, timeAgoCase_weeks _ _ _ _ hts, ?_, ?_⟩
  · intro h formatted
    rw [FormatTimeAgo, timeAgoCase_justNow _ _ _ _ hts h]
    rfl
  · intro formatted
    rw [FormatTimeAgo, timeAgoCase_never]
    rfl

/-- C20, at a timestamp 50 minutes old (3000 seconds, 50 minutes, 0 hours). -/
theorem FormatTimeAgo_plural_counts_witness :
    (5 : Int) ≠ 0 ∧ timeAgoCase 5 3000 50 0 = .minutes 50 ∧
    FormatTimeAgo 5 3000 50 0 "Nov 4" = "50 minutes ago" ∧ (2 : Int) ≤ 50 ∧ (50 : Int) ≤ 59 :=
  ⟨by decide, by decide, by decide,
    (FormatTimeAgo_plural_counts 5 3000 50 0 (by decide)).1 50 (by decide)⟩

end Crush
